import Mathlib

/-!
Verification development for the `TopicalPagerank` keyphrase extractor of
`keyverbum` (`src/keyverbum/keywords.py`).

The Python class is shallowly embedded below.  Mutable attributes of the
long-lived extractor object (`self.phrases`, `self.unstem_map`,
`self.topics`) become an explicit state record that is threaded through
the functions; Python `dict` / `defaultdict` become insertion-ordered
association lists; exceptions (`ZeroDivisionError`, `KeyError`, the
`ValueError`s raised by the scipy / sklearn collaborators) become an
`Except` error type (a raising call's partially mutated state is dropped
with the exception, so state is only tracked across successful calls);
CPython float arithmetic is idealised as exact rational arithmetic
over `ℚ`.

External collaborators are treated as follows.  The morphological
analyser / POS tagger is out of scope (spec §1, §6): a token arrives
already carrying its resolved POS tag.  The stemmer is an opaque function
parameter `stem`.  `sklearn.CountVectorizer` is modelled by its documented
default behaviour (lowercase, token pattern `\w\w+`, sorted vocabulary,
`inverse_transform` returning the non-zero vocabulary terms); the `\w`
class is modelled as alphanumeric-or-underscore.  `scipy` linkage +
fcluster are modelled as an opaque clustering function guarded by scipy's
documented requirement of at least two observations.  `networkx.pagerank`
is an opaque function from the weighted edge list to a node/score list;
pagerank of a graph with no nodes is the empty dict.  Python's
iteration order over a `frozenset` is unspecified and hash-dependent, so
it is an explicit parameter `ord` giving the order in which the members of
a (canonically represented) set are listed.
-/

namespace Keyverbum

/-- Errors that the Python code can raise on the paths modelled here.
`emptyVocabulary` is sklearn's `ValueError` from `CountVectorizer` on an
empty document list, `tooFewObservations` is scipy's `ValueError` from
`linkage` on fewer than two observations, the other two are CPython's
`ZeroDivisionError` and `KeyError`. -/
inductive PyError where
  | emptyVocabulary : PyError
  | tooFewObservations : PyError
  | zeroDivision : PyError
  | keyError : PyError
deriving DecidableEq, Repr

/-- An input token: the surface form together with its already-resolved
POS tag (tagging, including the LATN fallback of lines 180-183, is an
external collaborator per spec §6). -/
structure Token where
  surface : String
  pos : String

/-- Embedding of `self.tag_set` from `TopicalPagerank.__init__` (line 158). -/
def tag_set : List String :=
  ["ADJF", "ADJS", "NOUN", "JJ", "JJR", "JJS", "NN", "NNS", "NNP", "NNPS"]

/-- Insertion-ordered association list standing for a Python `dict`. -/
abbrev PhraseMap := List (String × List Nat)

/-- Embedding of `self.unstem_map`: normalized token ↦ (position, surface). -/
abbrev UnstemMap := List (String × (Nat × String))

/-- Lookup in an association list (first matching key). -/
def alookup {β : Type} : List (String × β) → String → Option β
  | [], _ => none
  | (k, v) :: rest, key => if k = key then some v else alookup rest key

/-- Python `d[k] = v`: overwrite in place if present, else append. -/
def aset {β : Type} : List (String × β) → String → β → List (String × β)
  | [], key, v => [(key, v)]
  | (k, w) :: rest, key, v =>
    if k = key then (k, v) :: rest else (k, w) :: aset rest key v

/-- Python `defaultdict(list)` read access `self.phrases[k]` (lines
213-214): a missing key is inserted with the empty list as a side effect. -/
def dictGet (m : PhraseMap) (k : String) : List Nat × PhraseMap :=
  match alookup m k with
  | some v => (v, m)
  | none => ([], m ++ [(k, [])])

/-- Occurrence list of a key as seen through `defaultdict` semantics. -/
def occD (m : PhraseMap) (k : String) : List Nat := (alookup m k).getD []

/-- String order used for Python `sorted` on strings: lexicographic on the
code points, phrased over `List Char` because the comparison must be
computable by the kernel. -/
def strLe (a b : String) : Prop := a.toList ≤ b.toList

instance : DecidableRel strLe := fun a b =>
  inferInstanceAs (Decidable (a.toList ≤ b.toList))

/-- Python `sorted` on a list of strings. -/
def sortStr (l : List String) : List String := List.insertionSort strLe l

/-- Embedding of `" ".join(sorted(phrase))` (line 198): the phrase key. -/
def joinKey (seg : List String) : String := String.intercalate " " (sortStr seg)

/-- Embedding of `[i for i, j in enumerate(phrases) if j == phrase]` (lines 198-200):
indices of the segments whose ordered list of normalized terms equals
`target` exactly. -/
def occIndicesAux (target : List String) : List (List String) → Nat → List Nat
  | [], _ => []
  | seg :: rest, i =>
    if seg = target then i :: occIndicesAux target rest (i + 1)
    else occIndicesAux target rest (i + 1)

def occIndices (segs : List (List String)) (target : List String) : List Nat :=
  occIndicesAux target segs 0

/-- The token loop of `_extract_phrases` (lines 178-195).  The Python list
`phrases` is kept as the closed segments `done` plus the currently open
buffer `cur` (`phrases[-1]`), so the Python list is always `done ++ [cur]`.
The local `positions` accumulator of the source is dead code (never read)
and is omitted. -/
def segLoop (stem : String → String) :
    List Token → List (List String) → List String → UnstemMap → Nat →
      List (List String) × List String × UnstemMap
  | [], done, cur, um, _counter => (done, cur, um)
  | tk :: rest, done, cur, um, counter =>
    if tk.pos ∈ tag_set then
      let stemmed := stem tk.surface
      if stemmed ≠ "" ∧ 1 < stemmed.length then
        segLoop stem rest done (cur ++ [stemmed])
          (aset um stemmed (counter, tk.surface)) (counter + 1)
      else
        segLoop stem rest done cur um (counter + 1)
    else
      if cur ≠ [] then segLoop stem rest (done ++ [cur]) [] um (counter + 1)
      else segLoop stem rest done cur um (counter + 1)

/-- Segment extraction: final value of the Python `phrases` list (the open
buffer is the last element, exactly as in the source) plus the updated
`self.unstem_map`. -/
def extractSegs (stem : String → String) (X : List Token) (um : UnstemMap) :
    List (List String) × UnstemMap :=
  let r := segLoop stem X [] [] um 0
  (r.1 ++ [r.2.1], r.2.2)

/-- The key-building loop of `_extract_phrases` (lines 196-200): for each
non-empty segment (in order) assign
`self.phrases[joinKey seg] = occIndices segs seg`, where `segs` is the full
segment list referenced by the comprehension. -/
def phrasesWrite (segs : List (List String)) : List (List String) → PhraseMap → PhraseMap
  | [], ph => ph
  | seg :: rest, ph =>
    if seg ≠ [] then phrasesWrite segs rest (aset ph (joinKey seg) (occIndices segs seg))
    else phrasesWrite segs rest ph

/-- The whole loop of lines 196-200, writing into the pre-existing
`self.phrases` dict. -/
def phrasesFold (segs : List (List String)) (ph : PhraseMap) : PhraseMap :=
  phrasesWrite segs segs ph

/-- Embedding of `_extract_phrases` (lines 174-200) as a state transformer on
`(self.phrases, self.unstem_map)`. -/
def extractPhrases (stem : String → String) (ph : PhraseMap) (um : UnstemMap)
    (X : List Token) : PhraseMap × UnstemMap :=
  let r := extractSegs stem X um
  (phrasesFold r.1 ph, r.2)

/-- Inner pair summation of `calc_distance` (lines 215-216):
`result += 1 / abs(a - b)` over `itertools.product`, raising
`ZeroDivisionError` when `a = b`. -/
def addPairs : List (Nat × Nat) → ℚ → Except PyError ℚ
  | [], acc => .ok acc
  | (a, b) :: rest, acc =>
    if a = b then .error .zeroDivision
    else addPairs rest (acc + 1 / |(a : ℚ) - (b : ℚ)|)

/-- `itertools.product(pa, pb)`. -/
def prodPairs (pa pb : List Nat) : List (Nat × Nat) :=
  pa.flatMap fun i => pb.map fun j => (i, j)

/-- The `for phrase_b in topic_b` loop body of `calc_distance`
(lines 211-216), threading the `defaultdict` state: `self.phrases[phrase_a]`
is read first, then `self.phrases[phrase_b]` on the once-updated dict. -/
def calcInner (a : String) : List String → ℚ → PhraseMap → Except PyError (ℚ × PhraseMap)
  | [], acc, m => .ok (acc, m)
  | b :: bs, acc, m =>
    if a ≠ b then
      match addPairs (prodPairs (dictGet m a).1 (dictGet (dictGet m a).2 b).1) acc with
      | .error e => .error e
      | .ok acc1 => calcInner a bs acc1 (dictGet (dictGet m a).2 b).2
    else calcInner a bs acc m

/-- The `for phrase_a in topic_a` loop of `calc_distance` (lines 210-216). -/
def calcOuter : List String → List String → ℚ → PhraseMap → Except PyError (ℚ × PhraseMap)
  | [], _, acc, m => .ok (acc, m)
  | a :: as', tb, acc, m =>
    match calcInner a tb acc m with
    | .error e => .error e
    | .ok r => calcOuter as' tb r.1 r.2

/-- Embedding of `TopicalPagerank.calc_distance` (lines 202-217): the distance
and the possibly-grown `self.phrases` dict. -/
def calc_distance (m : PhraseMap) (topic_a topic_b : List String) :
    Except PyError (ℚ × PhraseMap) :=
  calcOuter topic_a topic_b 0 m

/-- Characters matched by the `\w` of `CountVectorizer`'s default token
pattern (modelled as alphanumeric or underscore). -/
def isWordChar (c : Char) : Bool := c.isAlphanum || c = '_'

/-- Maximal runs of word characters of the lowercased input. -/
def wordRuns : List Char → List Char → List (List Char)
  | [], cur => if cur = [] then [] else [cur.reverse]
  | c :: cs, cur =>
    if isWordChar c then wordRuns cs (c :: cur)
    else if cur = [] then wordRuns cs [] else cur.reverse :: wordRuns cs []

/-- Tokenization performed by `CountVectorizer` (line 227): lowercase,
then all maximal word-character runs of length at least two. -/
def cvTokenize (s : String) : List String :=
  ((wordRuns (s.toList.map Char.toLower) []).filter fun t => 2 ≤ t.length).map
    fun t => String.mk t

/-- Models scipy `linkage` + `fcluster` (lines 231, 237): `linkage` raises
`ValueError` on fewer than two observations; otherwise the flat cluster
assignment is the opaque deterministic function `fcl` of the count matrix.
The cophenetic-correlation diagnostic of lines 232-234 only logs a warning
and is omitted. -/
def hacCluster (fcl : List (List Nat) → List Nat) (rows : List (List Nat)) :
    Except PyError (List Nat) :=
  if rows.length < 2 then .error .tooFewObservations else .ok (fcl rows)

/-- Grouping `defaultdict(list)` keyed by cluster id (lines 238-243):
values keep first-appearance key order, appends go to the end. -/
def agroupAdd : List (Nat × List String) → Nat → String → List (Nat × List String)
  | [], c, v => [(c, [v])]
  | (c0, vs) :: rest, c, v =>
    if c0 = c then (c0, vs ++ [v]) :: rest else (c0, vs) :: agroupAdd rest c v

def groupPairs (l : List (Nat × String)) : List (Nat × List String) :=
  l.foldl (fun acc p => agroupAdd acc p.1 p.2) []

/-- A weighted edge `(v, u, calc_distance(v, u))` of the topic graph. -/
abbrev Edge := List String × List String × ℚ

/-- Inner comprehension loop `for u in topic_clusters if u != v`
(lines 250-257); cluster sets are canonically represented, so Python's
set inequality `u != v` is list inequality, and the frozenset iteration
inside `calc_distance` is the explicit order parameter `ord`. -/
def edgesInner (ord : List String → List String) (v : List String) :
    List (List String) → PhraseMap → Except PyError (List Edge × PhraseMap)
  | [], m => .ok ([], m)
  | u :: us, m =>
    if u ≠ v then
      match calc_distance m (ord v) (ord u) with
      | .error e => .error e
      | .ok r =>
        match edgesInner ord v us r.2 with
        | .error e => .error e
        | .ok s => .ok ((v, u, r.1) :: s.1, s.2)
    else edgesInner ord v us m

/-- Outer comprehension loop `for v in topic_clusters` (lines 250-257). -/
def edgesOuter (ord : List String → List String) (cs : List (List String)) :
    List (List String) → PhraseMap → Except PyError (List Edge × PhraseMap)
  | [], m => .ok ([], m)
  | v :: vs, m =>
    match edgesInner ord v cs m with
    | .error e => .error e
    | .ok r =>
      match edgesOuter ord cs vs r.2 with
      | .error e => .error e
      | .ok s => .ok (r.1 ++ s.1, s.2)

/-- The part of `_identify_topics` (lines 226-257) up to and including the
edge list of the topic graph: vectorize the phrase keys, cluster, rebuild
cluster member strings via `inverse_transform`, and compute all weighted
edges.  A `frozenset` is canonically represented as the sorted
deduplicated member list. -/
def topicEdges (fcl : List (List Nat) → List Nat)
    (ord : List String → List String) (ph : PhraseMap) :
    Except PyError (List Edge × PhraseMap) :=
  let keys := ph.map Prod.fst
  let vocab := sortStr (keys.flatMap cvTokenize).dedup
  if vocab = [] then .error .emptyVocabulary
  else
    let rows := keys.map fun k => vocab.map fun t => (cvTokenize k).count t
    match hacCluster fcl rows with
    | .error e => .error e
    | .ok cids =>
      let members := rows.map fun row =>
        String.intercalate " "
          (sortStr ((vocab.zip row).filterMap fun p =>
            if p.2 ≠ 0 then some p.1 else none))
      let clusters := (groupPairs (cids.zip members)).map fun p => sortStr p.2.dedup
      edgesOuter ord clusters clusters ph

/-- Embedding of `nx.pagerank` (line 258) as an opaque function of the edge
list; the graph's nodes all come from `add_weighted_edges_from`, so a graph
with no edges has no nodes and pagerank returns the empty dict. -/
def prApply (pr : List Edge → List (List String × ℚ)) (edges : List Edge) :
    List (List String × ℚ) :=
  match edges with
  | [] => []
  | _ :: _ => pr edges

/-- Sort key for `self.topics`: Python compares the tuples
`(rank, list(cluster))` lexicographically, floats first, then the string
lists. -/
def tkey (p : ℚ × List String) : Lex (ℚ × List (List Char)) :=
  toLex (p.1, p.2.map String.toList)

/-- Descending tuple order used by `sorted(..., reverse=True)` (line 261). -/
def topicGe (p q : ℚ × List String) : Prop := tkey q ≤ tkey p

instance : DecidableRel topicGe := fun p q =>
  inferInstanceAs (Decidable (tkey q ≤ tkey p))

/-- Embedding of `sorted([(b, list(a)) for a, b in pr.items()], reverse=True)`
(line 261). -/
def sortDesc (l : List (ℚ × List String)) : List (ℚ × List String) :=
  List.insertionSort topicGe l

/-- The whole of `_identify_topics` (lines 219-261): the ranked topic list
`self.topics` plus the updated `self.phrases`. -/
def identifyTopics (fcl : List (List Nat) → List Nat)
    (pr : List Edge → List (List String × ℚ))
    (ord : List String → List String) (ph : PhraseMap) :
    Except PyError (List (ℚ × List String) × PhraseMap) :=
  match topicEdges fcl ord ph with
  | .error e => .error e
  | .ok r => .ok (sortDesc ((prApply pr r.1).map fun p => (p.2, ord p.1)), r.2)

/-- Selection `topic[0]` under the (only implemented) "first" strategy
(line 283), guarded by `if topic:` (line 282). -/
def firstPolicy (topic : List String) : Option String := topic.head?

/-- Python `str.split(" ")` (including its behaviour on the empty string). -/
def splitSpaceAux : List Char → List Char → List String
  | [], cur => [String.mk cur.reverse]
  | c :: cs, cur =>
    if c = ' ' then String.mk cur.reverse :: splitSpaceAux cs []
    else splitSpaceAux cs (c :: cur)

def splitSpace (s : String) : List String := splitSpaceAux s.toList []

/-- Order for Python `sorted` on `(position, surface)` tuples (line 284). -/
def pairLe (p q : Nat × String) : Prop :=
  toLex (p.1, p.2.toList) ≤ toLex (q.1, q.2.toList)

instance : DecidableRel pairLe := fun p q =>
  inferInstanceAs (Decidable (toLex (p.1, p.2.toList) ≤ toLex (q.1, q.2.toList)))

/-- Embedding of `[self.unstem_map[i] for i in first_kp.split(" ")]` (line 284): a
dict access, so a missing normalized term raises `KeyError`. -/
def lookupAll (um : UnstemMap) : List String → Except PyError (List (Nat × String))
  | [] => .ok []
  | t :: ts =>
    match alookup um t with
    | none => .error .keyError
    | some p =>
      match lookupAll um ts with
      | .error e => .error e
      | .ok rest => .ok (p :: rest)

/-- Surface-form recovery for a chosen phrase key (lines 284-285). -/
def recoverKeyphrase (um : UnstemMap) (kp : String) : Except PyError String :=
  match lookupAll um (splitSpace kp) with
  | .error e => .error e
  | .ok prs =>
    .ok (String.intercalate " " ((List.insertionSort pairLe prs).map Prod.snd))

/-- The output loop of `predict` (lines 281-286) over the truncated topic
list. -/
def selectLoop (um : UnstemMap) : List (ℚ × List String) → Except PyError (List String)
  | [] => .ok []
  | (_, topic) :: rest =>
    match firstPolicy topic with
    | none => selectLoop um rest
    | some kp =>
      match recoverKeyphrase um kp with
      | .error e => .error e
      | .ok s =>
        match selectLoop um rest with
        | .error e => .error e
        | .ok out => .ok (s :: out)

/-- The mutable attributes of a `TopicalPagerank` instance that survive a
`predict` call (`__init__`, lines 156-167; `self.text` is subsumed by the
explicit argument and `self.morph` / `self.stemmer` by the parameters). -/
structure TPState where
  phrases : PhraseMap
  unstem_map : UnstemMap
  topics : List (ℚ × List String)

/-- The state of a freshly constructed instance (lines 161-167). -/
def initState : TPState := ⟨[], [], []⟩

/-- Embedding of `TopicalPagerank.predict` (lines 263-287).  A non-"first"
`extract_strategy` only logs a warning and still uses "first"
(lines 279-280), so the strategy argument is omitted. -/
def predictTP (fcl : List (List Nat) → List Nat)
    (pr : List Edge → List (List String × ℚ))
    (ord : List String → List String) (stem : String → String)
    (st : TPState) (X : List Token) (n_keywords : Nat) :
    Except PyError (TPState × List String) :=
  match identifyTopics fcl pr ord (extractPhrases stem st.phrases st.unstem_map X).1 with
  | .error e => .error e
  | .ok r =>
    match selectLoop (extractPhrases stem st.phrases st.unstem_map X).2
        (r.1.take n_keywords) with
    | .error e => .error e
    | .ok res =>
      .ok (⟨r.2, (extractPhrases stem st.phrases st.unstem_map X).2, r.1⟩, res)

/-! ### Spec-side (pure) descriptions of `calc_distance` and the phrase map -/

/-- Pure double sum `Σ_{i ∈ occ a} Σ_{j ∈ occ b} 1 / |i - j|` describing one
pair contribution of `calc_distance` over a fixed occurrence assignment. -/
def S0 (occ : String → List Nat) (a b : String) : ℚ :=
  ((occ a).map fun i : Nat =>
    ((occ b).map fun j : Nat => 1 / |(i : ℚ) - (j : ℚ)|).sum).sum

/-- The condition under which the pair `(a, b)` makes `calc_distance` hit
`1 / abs(a - b)` with equal positions: distinct keys sharing an occurrence
index. -/
def badB (occ : String → List Nat) (a b : String) : Prop :=
  a ≠ b ∧ ∃ i ∈ occ a, i ∈ occ b

/-- Pure value of `calc_distance topic_a topic_b` when no division by zero
occurs. -/
def val0 (occ : String → List Nat) (ta tb : List String) : ℚ :=
  (ta.map fun a => (tb.map fun b => if a = b then 0 else S0 occ a b).sum).sum

/-- Modelled from the spec (§4.1): the list of all segment indices at which
a phrase with the given key occurred, used to compare the implementation's
occurrence lists against the specified ones. -/
def specKeyOccAux (key : String) : List (List String) → Nat → List Nat
  | [], _ => []
  | seg :: rest, i =>
    if seg ≠ [] ∧ joinKey seg = key then i :: specKeyOccAux key rest (i + 1)
    else specKeyOccAux key rest (i + 1)

def specKeyOccurrences (segs : List (List String)) (key : String) : List Nat :=
  specKeyOccAux key segs 0

/-! ### Concrete collaborators and documents used in witnesses and
counterexamples -/

/-- Identity normalizer (e.g. `NoneStemmer` on already-lowercase input). -/
def stemId : String → String := fun s => s

/-- One possible frozenset iteration order: the canonical one. -/
def ordId : List String → List String := fun l => l

/-- Another possible frozenset iteration order: reversed. -/
def ordRev : List String → List String := fun l => l.reverse

/-- A concrete flat-clustering collaborator: every observation its own
cluster. -/
def fclSingles : List (List Nat) → List Nat := fun rows => List.range rows.length

/-- A concrete flat-clustering collaborator grouping the first two of three
observations. -/
def fcl12 : List (List Nat) → List Nat := fun _ => [1, 1, 2]

/-- A concrete pagerank collaborator: every node of the edge list gets
score 1. -/
def prOnes : List Edge → List (List String × ℚ) := fun es =>
  ((es.map fun e => e.1).dedup).map fun v => (v, (1 : ℚ))

/-- A concrete pagerank collaborator with fixed scores 3/5 and 2/5. -/
def pr32 : List Edge → List (List String × ℚ) := fun _ =>
  [(["aa", "bb"], mkRat 3 5), (["cc"], mkRat 2 5)]

/-- `pr32` with its item list reversed (same node/score set, different
dict iteration order). -/
def pr32rev : List Edge → List (List String × ℚ) := fun es => (pr32 es).reverse

def doc1 : List Token := [⟨"aa", "NOUN"⟩, ⟨"xx", "VERB"⟩, ⟨"bb", "NOUN"⟩]

def doc2 : List Token := [⟨"cc", "NOUN"⟩, ⟨"xx", "VERB"⟩, ⟨"dd", "NOUN"⟩]

def doc3 : List Token :=
  [⟨"aa", "NOUN"⟩, ⟨"xx", "VERB"⟩, ⟨"bb", "NOUN"⟩, ⟨"yy", "VERB"⟩, ⟨"cc", "NOUN"⟩]

/-- Two segments with the same word set in different surface orders. -/
def doc6 : List Token :=
  [⟨"bb", "NOUN"⟩, ⟨"aa", "NOUN"⟩, ⟨"xx", "VERB"⟩, ⟨"aa", "NOUN"⟩, ⟨"bb", "NOUN"⟩]

/-- A state with residue from an earlier document: one stale phrase key at
position 5 with its surface mapping. -/
def stManual : TPState := ⟨[("zz", [5])], [("zz", (9, "zz"))], []⟩

/-- Unstem map used by the selector-level counterexample. -/
def umC4 : UnstemMap := [("aa", (0, "aa")), ("bb", (2, "bb"))]

/-! ### Association list lemmas -/

theorem alookup_aset_self {β : Type} (m : List (String × β)) (k : String) (v : β) :
    alookup (aset m k v) k = some v := by
  induction m with
  | nil => simp [aset, alookup]
  | cons p rest ih =>
    obtain ⟨k0, w⟩ := p
    by_cases h : k0 = k
    · subst h; simp [aset, alookup]
    · simp [aset, alookup, h, ih]

theorem alookup_aset_ne {β : Type} (m : List (String × β)) (k k' : String) (v : β)
    (h : k ≠ k') : alookup (aset m k v) k' = alookup m k' := by
  induction m with
  | nil => simp [aset, alookup, h]
  | cons p rest ih =>
    obtain ⟨k0, w⟩ := p
    by_cases h0 : k0 = k
    · subst h0; simp [aset, alookup, h]
    · simp only [aset, if_neg h0]
      by_cases h1 : k0 = k'
      · simp [alookup, h1]
      · simp [alookup, h1, ih]

theorem isSome_alookup_aset {β : Type} (m : List (String × β)) (k k' : String) (v : β)
    (h : (alookup m k').isSome) : (alookup (aset m k v) k').isSome := by
  by_cases hk : k = k'
  · subst hk; simp [alookup_aset_self]
  · rwa [alookup_aset_ne m k k' v hk]

theorem alookup_append_one {β : Type} (m : List (String × β)) (k k' : String) (v : β) :
    alookup (m ++ [(k, v)]) k' =
      match alookup m k' with
      | some w => some w
      | none => if k = k' then some v else none := by
  induction m with
  | nil => simp [alookup]
  | cons p rest ih =>
    obtain ⟨k0, w⟩ := p
    by_cases h0 : k0 = k'
    · simp [alookup, h0]
    · simp [alookup, h0, ih]

theorem dictGet_fst (m : PhraseMap) (k : String) : (dictGet m k).1 = occD m k := by
  unfold dictGet occD
  cases alookup m k <;> simp

theorem occD_dictGet (m : PhraseMap) (k k' : String) :
    occD (dictGet m k).2 k' = occD m k' := by
  unfold dictGet
  cases h : alookup m k with
  | some v => simp
  | none =>
    simp only [occD, alookup_append_one]
    cases h' : alookup m k' with
    | some w => simp
    | none =>
      by_cases hk : k = k' <;> simp [hk]

theorem alookup_dictGet_some (m : PhraseMap) (k k' : String) (v : List Nat)
    (h : alookup m k' = some v) : alookup (dictGet m k).2 k' = some v := by
  unfold dictGet
  cases h0 : alookup m k with
  | some w => simpa using h
  | none => simp [alookup_append_one, h]

theorem alookup_dictGet_self (m : PhraseMap) (k : String) (h : alookup m k = none) :
    alookup (dictGet m k).2 k = some [] := by
  unfold dictGet
  simp [h, alookup_append_one]

theorem occD_ne_nil_mem (m : PhraseMap) (k : String) (h : occD m k ≠ []) :
    k ∈ m.map Prod.fst := by
  induction m with
  | nil => simp [occD, alookup] at h
  | cons p rest ih =>
    obtain ⟨k0, w⟩ := p
    by_cases h0 : k0 = k
    · simp [h0]
    · simp only [occD, alookup, if_neg h0] at h
      simpa using Or.inr (ih h)

/-! ### Sum helpers -/

theorem sum_map_zero {β : Type} (l : List β) : (l.map fun _ => (0 : ℚ)).sum = 0 := by
  induction l with
  | nil => simp
  | cons b rest ih => simp [ih]

theorem sum_map_add {β : Type} (l : List β) (f g : β → ℚ) :
    (l.map fun x => f x + g x).sum = (l.map f).sum + (l.map g).sum := by
  induction l with
  | nil => simp
  | cons b rest ih => simp [ih]; ring

theorem sum_sum_comm {α β : Type} (A : List α) (B : List β) (f : α → β → ℚ) :
    (A.map fun a => (B.map fun b => f a b).sum).sum =
      (B.map fun b => (A.map fun a => f a b).sum).sum := by
  induction A with
  | nil => simp [sum_map_zero]
  | cons a A ih =>
    simp only [List.map_cons, List.sum_cons, ih]
    rw [← sum_map_add]

/-! ### Characterization of `calc_distance` -/

theorem addPairs_ok (ps : List (Nat × Nat)) (acc : ℚ) (h : ∀ p ∈ ps, p.1 ≠ p.2) :
    addPairs ps acc =
      .ok (acc + (ps.map fun p : Nat × Nat => 1 / |(p.1 : ℚ) - (p.2 : ℚ)|).sum) := by
  induction ps generalizing acc with
  | nil => simp [addPairs]
  | cons p rest ih =>
    obtain ⟨a, b⟩ := p
    have hab : a ≠ b := h (a, b) (List.mem_cons_self _ _)
    rw [addPairs, if_neg hab, ih _ fun q hq => h q (List.mem_cons_of_mem _ hq)]
    simp [add_assoc]

theorem addPairs_err (ps : List (Nat × Nat)) (acc : ℚ) (h : ∃ p ∈ ps, p.1 = p.2) :
    addPairs ps acc = .error .zeroDivision := by
  induction ps generalizing acc with
  | nil => simp at h
  | cons p rest ih =>
    obtain ⟨a, b⟩ := p
    by_cases hab : a = b
    · rw [addPairs, if_pos hab]
    · rw [addPairs, if_neg hab]
      obtain ⟨q, hq, hq2⟩ := h
      rcases List.mem_cons.mp hq with rfl | h1
      · exact absurd hq2 hab
      · exact ih _ ⟨q, h1, hq2⟩

theorem mem_prodPairs (pa pb : List Nat) (p : Nat × Nat) :
    p ∈ prodPairs pa pb ↔ p.1 ∈ pa ∧ p.2 ∈ pb := by
  obtain ⟨x, y⟩ := p
  simp only [prodPairs, List.mem_flatMap, List.mem_map, Prod.mk.injEq]
  constructor
  · rintro ⟨i, hi, j, hj, hji, hjy⟩
    exact ⟨hji ▸ hi, hjy ▸ hj⟩
  · rintro ⟨hx, hy⟩
    exact ⟨x, hx, y, hy, rfl, rfl⟩

theorem sum_prodPairs_div (pa pb : List Nat) :
    ((prodPairs pa pb).map fun p : Nat × Nat => 1 / |(p.1 : ℚ) - (p.2 : ℚ)|).sum =
      (pa.map fun i : Nat =>
        (pb.map fun j : Nat => 1 / |(i : ℚ) - (j : ℚ)|).sum).sum := by
  induction pa with
  | nil => simp [prodPairs]
  | cons i pa ih =>
    simp only [prodPairs, List.flatMap_cons, List.map_append, List.sum_append,
      List.map_map, List.map_cons, List.sum_cons]
    rw [show ((fun p : Nat × Nat => 1 / |(p.1 : ℚ) - (p.2 : ℚ)|) ∘ fun j => (i, j)) =
      fun j : Nat => 1 / |(i : ℚ) - (j : ℚ)| from rfl]
    exact congrArg (_ + ·) ih

theorem val0_cons (occ : String → List Nat) (a : String) (rest tb : List String) :
    val0 occ (a :: rest) tb =
      (tb.map fun b => if a = b then 0 else S0 occ a b).sum + val0 occ rest tb := by
  simp [val0]

theorem calcInner_err (occ : String → List Nat) (a : String) (bs : List String)
    (acc : ℚ) (m : PhraseMap) (hocc : ∀ k, occD m k = occ k)
    (h : ∃ b ∈ bs, badB occ a b) :
    calcInner a bs acc m = .error .zeroDivision := by
  induction bs generalizing acc m with
  | nil => simp at h
  | cons b rest ih =>
    by_cases hab : a = b
    · rw [calcInner, if_neg (by simp [hab])]
      refine ih acc m hocc ?_
      obtain ⟨b0, hb0, hbad⟩ := h
      rcases List.mem_cons.mp hb0 with rfl | h1
      · exact absurd hab hbad.1
      · exact ⟨b0, h1, hbad⟩
    · rw [calcInner, if_pos hab]
      have hfst : (dictGet m a).1 = occ a := by rw [dictGet_fst, hocc]
      have hsnd : (dictGet (dictGet m a).2 b).1 = occ b := by
        rw [dictGet_fst, occD_dictGet, hocc]
      by_cases hbad : badB occ a b
      · obtain ⟨-, i, hia, hib⟩ := hbad
        rw [addPairs_err _ _ ⟨(i, i), (mem_prodPairs _ _ _).mpr
          (by rw [hfst, hsnd]; exact ⟨hia, hib⟩), rfl⟩]
      · have hnosh : ∀ p ∈ prodPairs (dictGet m a).1 (dictGet (dictGet m a).2 b).1,
            p.1 ≠ p.2 := by
          intro p hp he
          obtain ⟨h1, h2⟩ := (mem_prodPairs _ _ _).mp hp
          exact hbad ⟨hab, p.1, hfst ▸ h1, he ▸ hsnd ▸ h2⟩
        rw [addPairs_ok _ _ hnosh]
        refine ih _ _ (fun k => by rw [occD_dictGet, occD_dictGet, hocc]) ?_
        obtain ⟨b0, hb0, hbad0⟩ := h
        rcases List.mem_cons.mp hb0 with rfl | h1
        · exact absurd hbad0 hbad
        · exact ⟨b0, h1, hbad0⟩

theorem calcInner_ok (occ : String → List Nat) (a : String) (bs : List String)
    (acc : ℚ) (m : PhraseMap) (hocc : ∀ k, occD m k = occ k)
    (h : ∀ b ∈ bs, ¬ badB occ a b) :
    ∃ m2, calcInner a bs acc m =
        .ok (acc + (bs.map fun b => if a = b then 0 else S0 occ a b).sum, m2) ∧
      ∀ k, occD m2 k = occ k := by
  induction bs generalizing acc m with
  | nil => exact ⟨m, by simp [calcInner], hocc⟩
  | cons b rest ih =>
    by_cases hab : a = b
    · rw [calcInner, if_neg (by simp [hab])]
      obtain ⟨m2, he, hm2⟩ := ih acc m hocc fun b0 hb0 => h b0 (List.mem_cons_of_mem _ hb0)
      exact ⟨m2, by rw [he, List.map_cons, List.sum_cons, if_pos hab, zero_add], hm2⟩
    · rw [calcInner, if_pos hab]
      have hfst : (dictGet m a).1 = occ a := by rw [dictGet_fst, hocc]
      have hsnd : (dictGet (dictGet m a).2 b).1 = occ b := by
        rw [dictGet_fst, occD_dictGet, hocc]
      have hnosh : ∀ p ∈ prodPairs (dictGet m a).1 (dictGet (dictGet m a).2 b).1,
          p.1 ≠ p.2 := by
        intro p hp he
        obtain ⟨h1, h2⟩ := (mem_prodPairs _ _ _).mp hp
        exact h b (List.mem_cons_self _ _) ⟨hab, p.1, hfst ▸ h1, he ▸ hsnd ▸ h2⟩
      rw [addPairs_ok _ _ hnosh]
      have hS : ((prodPairs (dictGet m a).1 (dictGet (dictGet m a).2 b).1).map
          fun p : Nat × Nat => 1 / |(p.1 : ℚ) - (p.2 : ℚ)|).sum = S0 occ a b := by
        rw [sum_prodPairs_div, hfst, hsnd, S0]
      obtain ⟨m2, he, hm2⟩ := ih (acc + S0 occ a b) (dictGet (dictGet m a).2 b).2
        (fun k => by rw [occD_dictGet, occD_dictGet, hocc])
        (fun b0 hb0 => h b0 (List.mem_cons_of_mem _ hb0))
      have he2 : calcInner a rest
          (acc + ((prodPairs (dictGet m a).1 (dictGet (dictGet m a).2 b).1).map
            fun p : Nat × Nat => 1 / |(p.1 : ℚ) - (p.2 : ℚ)|).sum)
          (dictGet (dictGet m a).2 b).2 =
          .ok (acc + ((b :: rest).map fun b0 => if a = b0 then 0 else S0 occ a b0).sum, m2) := by
        rw [hS, he, List.map_cons, List.sum_cons, if_neg hab, ← add_assoc]
      exact ⟨m2, he2, hm2⟩

theorem calcOuter_err (occ : String → List Nat) (ta tb : List String)
    (acc : ℚ) (m : PhraseMap) (hocc : ∀ k, occD m k = occ k)
    (h : ∃ a ∈ ta, ∃ b ∈ tb, badB occ a b) :
    calcOuter ta tb acc m = .error .zeroDivision := by
  induction ta generalizing acc m with
  | nil => simp at h
  | cons a rest ih =>
    by_cases ha : ∃ b ∈ tb, badB occ a b
    · rw [calcOuter, calcInner_err occ a tb acc m hocc ha]
    · have hall : ∀ b ∈ tb, ¬ badB occ a b := by
        intro b hb hbad; exact ha ⟨b, hb, hbad⟩
      obtain ⟨m2, he, hm2⟩ := calcInner_ok occ a tb acc m hocc hall
      rw [calcOuter, he]
      refine ih _ _ hm2 ?_
      obtain ⟨a0, ha0, hbad0⟩ := h
      rcases List.mem_cons.mp ha0 with rfl | h1
      · exact absurd hbad0 ha
      · exact ⟨a0, h1, hbad0⟩

theorem calcOuter_ok (occ : String → List Nat) (ta tb : List String)
    (acc : ℚ) (m : PhraseMap) (hocc : ∀ k, occD m k = occ k)
    (h : ∀ a ∈ ta, ∀ b ∈ tb, ¬ badB occ a b) :
    ∃ m2, calcOuter ta tb acc m = .ok (acc + val0 occ ta tb, m2) ∧
      ∀ k, occD m2 k = occ k := by
  induction ta generalizing acc m with
  | nil => exact ⟨m, by simp [calcOuter, val0], hocc⟩
  | cons a rest ih =>
    obtain ⟨m2, he, hm2⟩ := calcInner_ok occ a tb acc m hocc
      (h a (List.mem_cons_self _ _))
    obtain ⟨m3, he3, hm3⟩ := ih (acc + (tb.map fun b => if a = b then 0 else S0 occ a b).sum)
      m2 hm2 fun a0 ha0 => h a0 (List.mem_cons_of_mem _ ha0)
    have he4 : calcOuter rest tb
        (acc + (tb.map fun b => if a = b then 0 else S0 occ a b).sum) m2 =
        .ok (acc + val0 occ (a :: rest) tb, m3) := by
      rw [he3, val0_cons, ← add_assoc]
    refine ⟨m3, ?_, hm3⟩
    rw [calcOuter, he]
    exact he4

theorem calc_distance_err (m : PhraseMap) (ta tb : List String)
    (h : ∃ a ∈ ta, ∃ b ∈ tb, badB (occD m) a b) :
    calc_distance m ta tb = .error .zeroDivision :=
  calcOuter_err (occD m) ta tb 0 m (fun _ => rfl) h

theorem calc_distance_ok (m : PhraseMap) (ta tb : List String)
    (h : ∀ a ∈ ta, ∀ b ∈ tb, ¬ badB (occD m) a b) :
    ∃ m2, calc_distance m ta tb = .ok (val0 (occD m) ta tb, m2) ∧
      ∀ k, occD m2 k = occD m k := by
  obtain ⟨m2, he, hm2⟩ := calcOuter_ok (occD m) ta tb 0 m (fun _ => rfl) h
  exact ⟨m2, by rw [calc_distance, he, zero_add], hm2⟩

/-! ### Symmetry of the distance -/

theorem map_congr_q {α γ : Type} (l : List α) (f g : α → γ) (h : ∀ x ∈ l, f x = g x) :
    l.map f = l.map g := by
  induction l with
  | nil => simp
  | cons a rest ih =>
    rw [List.map_cons, List.map_cons, h a (List.mem_cons_self _ _),
      ih fun x hx => h x (List.mem_cons_of_mem _ hx)]

theorem badB_symm {occ : String → List Nat} {a b : String} (h : badB occ a b) :
    badB occ b a := by
  obtain ⟨hne, i, hia, hib⟩ := h
  exact ⟨Ne.symm hne, i, hib, hia⟩

theorem S0_symm (occ : String → List Nat) (a b : String) : S0 occ a b = S0 occ b a := by
  unfold S0
  rw [sum_sum_comm (occ a) (occ b) fun i j => 1 / |(i : ℚ) - (j : ℚ)|]
  refine congrArg List.sum (map_congr_q _ _ _ ?_)
  intro j hj
  refine congrArg List.sum (map_congr_q _ _ _ ?_)
  intro i hi
  rw [abs_sub_comm]

theorem val0_symm (occ : String → List Nat) (A B : List String) :
    val0 occ A B = val0 occ B A := by
  unfold val0
  rw [sum_sum_comm A B fun a b => if a = b then 0 else S0 occ a b]
  refine congrArg List.sum (map_congr_q _ _ _ ?_)
  intro b hb
  refine congrArg List.sum (map_congr_q _ _ _ ?_)
  intro a ha
  by_cases hab : a = b
  · simp [hab]
  · rw [if_neg hab, if_neg (Ne.symm hab), S0_symm]

/-! ### Preservation lemmas for the `defaultdict` state -/

theorem mem_keys_of_alookup_some {β : Type} (m : List (String × β)) (k : String) (v : β)
    (h : alookup m k = some v) : k ∈ m.map Prod.fst := by
  induction m with
  | nil => simp [alookup] at h
  | cons p rest ih =>
    obtain ⟨k0, w⟩ := p
    by_cases h0 : k0 = k
    · simp [h0]
    · simp only [alookup, if_neg h0] at h
      simpa using Or.inr (ih h)

theorem calcInner_preserves_some (a : String) (bs : List String) :
    ∀ (acc : ℚ) (m : PhraseMap) (q : ℚ) (m2 : PhraseMap) (k : String) (v : List Nat),
      alookup m k = some v → calcInner a bs acc m = .ok (q, m2) →
        alookup m2 k = some v := by
  induction bs with
  | nil =>
    intro acc m q m2 k v hk he
    rw [calcInner] at he
    obtain ⟨-, rfl⟩ : acc = q ∧ m = m2 := by simpa using he
    exact hk
  | cons b rest ih =>
    intro acc m q m2 k v hk he
    by_cases hab : a ≠ b
    · rw [calcInner, if_pos hab] at he
      split at he
      · simp at he
      · exact ih _ _ q m2 k v
          (alookup_dictGet_some _ _ _ _ (alookup_dictGet_some _ _ _ _ hk)) he
    · rw [calcInner, if_neg hab] at he
      exact ih acc m q m2 k v hk he

theorem calcOuter_preserves_some (ta tb : List String) :
    ∀ (acc : ℚ) (m : PhraseMap) (q : ℚ) (m2 : PhraseMap) (k : String) (v : List Nat),
      alookup m k = some v → calcOuter ta tb acc m = .ok (q, m2) →
        alookup m2 k = some v := by
  induction ta with
  | nil =>
    intro acc m q m2 k v hk he
    rw [calcOuter] at he
    obtain ⟨-, rfl⟩ : acc = q ∧ m = m2 := by simpa using he
    exact hk
  | cons a rest ih =>
    intro acc m q m2 k v hk he
    rw [calcOuter] at he
    split at he
    · simp at he
    · next r heq =>
      exact ih r.1 r.2 q m2 k v (calcInner_preserves_some a tb acc m r.1 r.2 k v hk heq) he

theorem calcInner_missing_self (x : String) (bs : List String) :
    ∀ (acc : ℚ) (m : PhraseMap) (q : ℚ) (m2 : PhraseMap),
      occD m x = [] → calcInner x bs acc m = .ok (q, m2) →
        (∃ b ∈ bs, b ≠ x) → alookup m2 x = some [] := by
  induction bs with
  | nil =>
    intro acc m q m2 _ _ hex
    simp at hex
  | cons b rest ih =>
    intro acc m q m2 hx he hex
    by_cases hxb : x ≠ b
    · rw [calcInner, if_pos hxb] at he
      have h1 : (dictGet m x).1 = [] := by rw [dictGet_fst]; exact hx
      rw [h1, show prodPairs [] (dictGet (dictGet m x).2 b).1 = [] from rfl] at he
      rw [show addPairs ([] : List (Nat × Nat)) acc = Except.ok acc from rfl] at he
      have hl : alookup (dictGet m x).2 x = some [] := by
        cases hmx : alookup m x with
        | none => exact alookup_dictGet_self m x hmx
        | some v =>
          have hv : v = [] := by simpa [occD, hmx] using hx
          subst hv
          unfold dictGet
          simp [hmx]
      have hl2 : alookup (dictGet (dictGet m x).2 b).2 x = some [] :=
        alookup_dictGet_some _ _ _ _ hl
      exact calcInner_preserves_some x rest acc _ q m2 x [] hl2 he
    · rw [calcInner, if_neg hxb] at he
      refine ih acc m q m2 hx he ?_
      obtain ⟨b1, hb1, hne1⟩ := hex
      rcases List.mem_cons.mp hb1 with rfl | h1
      · exact absurd (not_ne_iff.mp hxb).symm hne1
      · exact ⟨b1, h1, hne1⟩

/-! ### Claim theorems about `calc_distance` -/

/-- C8: for every two phrase-key groups `A` and `B`,
`calc_distance(A, B)` equals `calc_distance(B, A)` — both raise together,
and when they return they return the same rational value. -/
theorem calc_distance_symm (m : PhraseMap) (A B : List String) :
    (calc_distance m A B).map Prod.fst = (calc_distance m B A).map Prod.fst := by
  by_cases h : ∃ a ∈ A, ∃ b ∈ B, badB (occD m) a b
  · obtain ⟨a, ha, b, hb, hbad⟩ := h
    rw [calc_distance_err m A B ⟨a, ha, b, hb, hbad⟩,
      calc_distance_err m B A ⟨b, hb, a, ha, badB_symm hbad⟩]
  · have hAB : ∀ a ∈ A, ∀ b ∈ B, ¬ badB (occD m) a b := fun a ha b hb hbad =>
      h ⟨a, ha, b, hb, hbad⟩
    have hBA : ∀ b ∈ B, ∀ a ∈ A, ¬ badB (occD m) b a := fun b hb a ha hbad =>
      h ⟨a, ha, b, hb, badB_symm hbad⟩
    obtain ⟨m1, e1, -⟩ := calc_distance_ok m A B hAB
    obtain ⟨m2, e2, -⟩ := calc_distance_ok m B A hBA
    rw [e1, e2]
    simp [Except.map, val0_symm]

/-- C7 counterexample: the source guards only against equal phrase keys
(`if phrase_a != phrase_b`), not against equal occurrence positions, so on
the malformed map where the distinct keys "aa" and "bb" share occurrence
index 0, `calc_distance` raises `ZeroDivisionError` instead of defending
against it. -/
theorem calc_distance_zero_div_counterexample :
    calc_distance [("aa", [0]), ("bb", [0])] ["aa"] ["bb"] =
      .error PyError.zeroDivision := rfl

/-- C7 amended: `calc_distance` defends only against equal phrase keys; it
never raises division-by-zero provided distinct keys of the phrase map have
disjoint occurrence lists (the intended invariant), while malformed maps
violating that invariant do raise. -/
theorem calc_distance_ok_of_disjoint (m : PhraseMap) (A B : List String)
    (hdisj : ∀ k1 ∈ m.map Prod.fst, ∀ k2 ∈ m.map Prod.fst, k1 ≠ k2 →
      ∀ i ∈ occD m k1, i ∉ occD m k2) :
    ∃ r, calc_distance m A B = .ok r := by
  have hno : ∀ a ∈ A, ∀ b ∈ B, ¬ badB (occD m) a b := by
    rintro a ha b hb ⟨hne, i, hia, hib⟩
    have h1 : a ∈ m.map Prod.fst := by
      refine occD_ne_nil_mem m a fun hh => ?_
      rw [hh] at hia
      simp at hia
    have h2 : b ∈ m.map Prod.fst := by
      refine occD_ne_nil_mem m b fun hh => ?_
      rw [hh] at hib
      simp at hib
    exact hdisj a h1 b h2 hne i hia hib
  obtain ⟨m2, he, -⟩ := calc_distance_ok m A B hno
  exact ⟨_, he⟩

/-- C7 amended, witness: on a well-formed map with disjoint occurrence
lists the distance computation succeeds. -/
theorem calc_distance_ok_of_disjoint_witness :
    (calc_distance [("aa", [0]), ("bb", [1])] ["aa"] ["bb"]).isOk = true := by
  obtain ⟨r, hr⟩ :=
    calc_distance_ok_of_disjoint [("aa", [0]), ("bb", [1])] ["aa"] ["bb"] (by decide)
  rw [hr]
  rfl

/-- C10: a topic member that is not a key of the phrase map (reachable
because cluster members are rebuilt by `inverse_transform`) does not make
`calc_distance` raise: the `defaultdict` yields the empty occurrence list,
the pairs involving it contribute 0, and as a side effect an empty entry is
inserted, so afterwards the missing key maps to `[]` — the non-empty
occurrence-list invariant no longer holds. -/
theorem calc_distance_missing_key (m : PhraseMap) (x b0 : String) (tb : List String)
    (hx : alookup m x = none) (hb : b0 ∈ tb) (hne : b0 ≠ x) :
    ∃ m2, calc_distance m [x] tb = .ok (0, m2) ∧ alookup m2 x = some [] ∧
      x ∈ m2.map Prod.fst ∧ occD m2 x = [] := by
  have hocc0 : occD m x = [] := by simp [occD, hx]
  have hno : ∀ a ∈ ([x] : List String), ∀ b ∈ tb, ¬ badB (occD m) a b := by
    rintro a ha b hb2 ⟨hne2, i, hia, hib⟩
    have ha2 : a = x := by simpa using ha
    subst ha2
    rw [hocc0] at hia
    simp at hia
  obtain ⟨m2, he, -⟩ := calc_distance_ok m [x] tb hno
  have hval : val0 (occD m) [x] tb = 0 := by
    have hterm : ∀ b ∈ tb, (if x = b then 0 else S0 (occD m) x b) = (fun _ => (0 : ℚ)) b := by
      intro b hb2
      by_cases hxb : x = b
      · simp [hxb]
      · simp [hxb, S0, hocc0]
    simp only [val0, List.map_cons, List.map_nil, List.sum_cons, List.sum_nil, add_zero]
    rw [map_congr_q tb _ _ hterm, sum_map_zero]
  rw [hval] at he
  refine ⟨m2, he, ?_⟩
  have hinner : ∃ q1, calcInner x tb 0 m = .ok (q1, m2) := by
    have he2 := he
    rw [calc_distance, calcOuter] at he2
    split at he2
    · simp at he2
    · next r heq =>
      rw [calcOuter] at he2
      have hr : r = (0, m2) := by simpa using he2
      refine ⟨0, ?_⟩
      rw [hr] at heq
      exact heq
  obtain ⟨q1, hq1⟩ := hinner
  have hlook : alookup m2 x = some [] :=
    calcInner_missing_self x tb 0 m q1 m2 hocc0 hq1 ⟨b0, hb, hne⟩
  exact ⟨hlook, mem_keys_of_alookup_some m2 x [] hlook, by simp [occD, hlook]⟩

/-- C10 witness: concrete missing member "qq" against the map
`{"bb" ↦ [1]}`: the call succeeds with value 0 and afterwards "qq" maps to
the empty list. -/
theorem calc_distance_missing_key_witness :
    (calc_distance [("bb", [1])] ["qq"] ["bb"]).map
      (fun r => (r.1, alookup r.2 "qq")) = .ok (0, some []) := by
  obtain ⟨m2, he, hl, -, -⟩ :=
    calc_distance_missing_key [("bb", [1])] "qq" "bb" ["bb"] rfl
      (List.mem_cons_self _ _) (by decide)
  rw [he]
  simp [Except.map, hl]

/-! ### Extraction: characterization of the recorded occurrence lists -/

theorem phrasesWrite_no_write (segs : List (List String)) (l : List (List String))
    (ph : PhraseMap) (k : String) (h : ∀ s ∈ l, s ≠ [] → joinKey s ≠ k) :
    alookup (phrasesWrite segs l ph) k = alookup ph k := by
  induction l generalizing ph with
  | nil => rfl
  | cons s rest ih =>
    by_cases hs : s ≠ []
    · rw [phrasesWrite, if_pos hs,
        ih _ fun s2 h2 => h s2 (List.mem_cons_of_mem _ h2),
        alookup_aset_ne _ _ _ _ (h s (List.mem_cons_self _ _) hs)]
    · rw [phrasesWrite, if_neg hs]
      exact ih _ fun s2 h2 => h s2 (List.mem_cons_of_mem _ h2)

theorem phrasesWrite_lookup_const (segs : List (List String)) (l : List (List String))
    (ph : PhraseMap) (k : String) (v : List Nat)
    (hall : ∀ s ∈ l, s ≠ [] → joinKey s = k → occIndices segs s = v)
    (hex : ∃ s ∈ l, s ≠ [] ∧ joinKey s = k) :
    alookup (phrasesWrite segs l ph) k = some v := by
  induction l generalizing ph with
  | nil => simp at hex
  | cons s rest ih =>
    have hall2 : ∀ s2 ∈ rest, s2 ≠ [] → joinKey s2 = k → occIndices segs s2 = v :=
      fun s2 h2 => hall s2 (List.mem_cons_of_mem _ h2)
    by_cases hs : s ≠ []
    · rw [phrasesWrite, if_pos hs]
      by_cases hk : joinKey s = k
      · by_cases hex2 : ∃ s2 ∈ rest, s2 ≠ [] ∧ joinKey s2 = k
        · exact ih _ hall2 hex2
        · have hnw : ∀ s2 ∈ rest, s2 ≠ [] → joinKey s2 ≠ k := by
            intro s2 h2 hs2 hk2
            exact hex2 ⟨s2, h2, hs2, hk2⟩
          rw [phrasesWrite_no_write segs rest _ k hnw,
            hall s (List.mem_cons_self _ _) hs hk, hk]
          exact alookup_aset_self _ _ _
      · refine ih _ hall2 ?_
        obtain ⟨s2, h2, hs2, hk2⟩ := hex
        rcases List.mem_cons.mp h2 with rfl | h3
        · exact absurd hk2 hk
        · exact ⟨s2, h3, hs2, hk2⟩
    · rw [phrasesWrite, if_neg hs]
      refine ih _ hall2 ?_
      obtain ⟨s2, h2, hs2, hk2⟩ := hex
      rcases List.mem_cons.mp h2 with rfl | h3
      · exact absurd hs2 hs
      · exact ⟨s2, h3, hs2, hk2⟩

theorem occAux_eq_specAux (segs : List (List String)) (seg : List String)
    (hinj : ∀ s ∈ segs, joinKey s = joinKey seg → s = seg) (hne : seg ≠ []) :
    ∀ (l : List (List String)) (i : Nat), (∀ s ∈ l, s ∈ segs) →
      occIndicesAux seg l i = specKeyOccAux (joinKey seg) l i := by
  intro l
  induction l with
  | nil => intro i _; rfl
  | cons s rest ih =>
    intro i hsub
    have hsub2 : ∀ s2 ∈ rest, s2 ∈ segs := fun s2 h2 => hsub s2 (List.mem_cons_of_mem _ h2)
    by_cases hs : s = seg
    · subst hs
      rw [occIndicesAux, if_pos rfl, specKeyOccAux, if_pos ⟨hne, rfl⟩, ih _ hsub2]
    · have hcond : ¬ (s ≠ [] ∧ joinKey s = joinKey seg) := by
        rintro ⟨-, hk⟩
        exact hs (hinj s (hsub s (List.mem_cons_self _ _)) hk)
      rw [occIndicesAux, if_neg hs, specKeyOccAux, if_neg hcond, ih _ hsub2]

theorem occIndices_eq_spec (segs : List (List String)) (seg : List String)
    (hinj : ∀ s ∈ segs, joinKey s = joinKey seg → s = seg) (hne : seg ≠ []) :
    occIndices segs seg = specKeyOccurrences segs (joinKey seg) :=
  occAux_eq_specAux segs seg hinj hne segs 0 fun _ h => h

/-- C6 counterexample: on the document "bb aa | aa bb" (same word set, two
surface orders, segment indices 0 and 1) the recorded occurrence list of
the collapsed key "aa bb" is `[1]` — the assignment of lines 198-200
compares whole ordered segments (`j == phrase`) and the later write
overwrites the earlier one — whereas the claim demands all indices
`[0, 1]`. -/
theorem extract_occurrences_counterexample :
    alookup (phrasesFold (extractSegs stemId doc6 []).1 []) "aa bb" = some [1] ∧
      specKeyOccurrences (extractSegs stemId doc6 []).1 "aa bb" = [0, 1] ∧
      ([1] : List Nat) ≠ [0, 1] :=
  ⟨rfl, rfl, by decide⟩

/-- C6 amended: the occurrence list recorded for a key lists the segments
with the same ordered term list as the (last) segment carrying that key;
whenever the key determines the ordered term list (in particular when no
two segments share a word set in different orders), it equals the full
list of segment indices at which a phrase with that key occurred. -/
theorem extract_occurrences_complete (stem : String → String) (X : List Token)
    (hinj : ∀ s1 ∈ (extractSegs stem X []).1, ∀ s2 ∈ (extractSegs stem X []).1,
      joinKey s1 = joinKey s2 → s1 = s2) :
    ∀ seg ∈ (extractSegs stem X []).1, seg ≠ [] →
      alookup (phrasesFold (extractSegs stem X []).1 []) (joinKey seg) =
        some (specKeyOccurrences (extractSegs stem X []).1 (joinKey seg)) := by
  intro seg hseg hne
  refine phrasesWrite_lookup_const _ _ _ _ _ ?_ ⟨seg, hseg, hne, rfl⟩
  intro s hs hs2 hk
  have hse : s = seg := hinj s hs seg hseg hk
  rw [hse]
  exact occIndices_eq_spec _ seg (fun s3 h3 hk3 => hinj s3 h3 seg hseg hk3) hne

/-- C6 amended, witness: a single one-phrase document, where the recorded
list coincides with the specified list of all segment indices. -/
theorem extract_occurrences_complete_witness :
    alookup (phrasesFold (extractSegs stemId [⟨"aa", "NOUN"⟩] []).1 [])
        (joinKey ["aa"]) =
      some (specKeyOccurrences (extractSegs stemId [⟨"aa", "NOUN"⟩] []).1
        (joinKey ["aa"])) :=
  extract_occurrences_complete stemId [⟨"aa", "NOUN"⟩] (by decide) ["aa"]
    (by decide) (by decide)

/-! ### The topic sort respects permutations of the pagerank items -/

theorem strToList_inj : Function.Injective String.toList := by
  intro a b h
  cases a
  cases b
  exact congrArg String.mk (by simpa [String.toList] using h)

theorem tkey_inj {p q : ℚ × List String} (h : tkey p = tkey q) : p = q := by
  have h2 := toLex.injective h
  have h34 : p.1 = q.1 ∧ p.2.map String.toList = q.2.map String.toList := by
    simpa using h2
  have h5 : p.2 = q.2 := List.map_injective_iff.mpr strToList_inj h34.2
  exact Prod.ext h34.1 h5

instance : IsTotal (ℚ × List String) topicGe :=
  ⟨fun p q => le_total (tkey q) (tkey p)⟩

instance : IsTrans (ℚ × List String) topicGe :=
  ⟨fun _ _ _ h1 h2 => le_trans h2 h1⟩

instance : IsAntisymm (ℚ × List String) topicGe :=
  ⟨fun _ _ h1 h2 => tkey_inj (le_antisymm h2 h1)⟩

theorem sortDesc_perm_eq (l1 l2 : List (ℚ × List String)) (h : l1.Perm l2) :
    sortDesc l1 = sortDesc l2 := by
  refine List.eq_of_perm_of_sorted ?_ (List.sorted_insertionSort _ _)
    (List.sorted_insertionSort _ _)
  exact (List.perm_insertionSort _ _).trans (h.trans (List.perm_insertionSort _ _).symm)

theorem identifyTopics_pr_perm (fcl : List (List Nat) → List Nat)
    (ord : List String → List String) (ph : PhraseMap)
    (pr1 pr2 : List Edge → List (List String × ℚ))
    (h : ∀ es, (pr1 es).Perm (pr2 es)) :
    identifyTopics fcl pr1 ord ph = identifyTopics fcl pr2 ord ph := by
  unfold identifyTopics
  cases hte : topicEdges fcl ord ph with
  | error e => rfl
  | ok r =>
    have hpr : (prApply pr1 r.1).Perm (prApply pr2 r.1) := by
      unfold prApply
      cases r.1 with
      | nil => exact List.Perm.refl _
      | cons a l => exact h _
    show Except.ok (sortDesc ((prApply pr1 r.1).map fun p => (p.2, ord p.1)), r.2) =
      Except.ok (sortDesc ((prApply pr2 r.1).map fun p => (p.2, ord p.1)), r.2)
    rw [sortDesc_perm_eq _ _ (hpr.map _)]

/-! ### Claim theorems C1-C5, C9 -/

/-- C1 (code bug): a document yielding exactly one distinct phrase key does
not degrade gracefully — `CountVectorizer` succeeds, but scipy's `linkage`
raises `ValueError` on a single observation, so `predict` propagates an
exception instead of returning the phrase, for every clustering / pagerank
collaborator and every set-iteration order. -/
theorem predict_single_phrase_raises :
    ∀ (fcl : List (List Nat) → List Nat) (pr : List Edge → List (List String × ℚ))
      (ord : List String → List String) (n : Nat),
      predictTP fcl pr ord stemId initState [⟨"aa", "NOUN"⟩] n =
        .error PyError.tooFewObservations :=
  fun _ _ _ _ => rfl

/-- C2 (code bug): a document with zero content-tagged tokens (one VERB
token, or no tokens at all) produces an empty phrase-key list, on which
`CountVectorizer.fit_transform` raises `ValueError` ("empty vocabulary"),
so `predict` raises instead of returning the empty list. -/
theorem predict_no_content_raises :
    ∀ (fcl : List (List Nat) → List Nat) (pr : List Edge → List (List String × ℚ))
      (ord : List String → List String) (stem : String → String) (n : Nat),
      predictTP fcl pr ord stem initState [⟨"run", "VERB"⟩] n =
          .error PyError.emptyVocabulary ∧
        predictTP fcl pr ord stem initState [] n = .error PyError.emptyVocabulary :=
  fun _ _ _ _ _ => ⟨rfl, rfl⟩

/-- C3 counterexample: two runs on the identical document, configuration
and collaborators, differing only in the (unspecified, hash-dependent)
frozenset iteration order, return different keyphrase lists: the
representative of the cluster {"aa", "bb"} is whichever member the set
happens to list first. -/
theorem predict_set_order_counterexample :
    (predictTP fcl12 pr32 ordId stemId initState doc3 10).map Prod.snd =
        .ok ["aa", "cc"] ∧
      (predictTP fcl12 pr32 ordRev stemId initState doc3 10).map Prod.snd =
        .ok ["bb", "cc"] ∧
      (["aa", "cc"] : List String) ≠ ["bb", "cc"] :=
  ⟨rfl, rfl, by decide⟩

/-- C3 amended: the pipeline is deterministic given the collaborators and a
fixed set-iteration order; in particular the iteration order of the
pagerank result dict is canonicalized away by the sort of line 261 —
permuting the pagerank item list never changes the output.  Only the
frozenset order feeding `list(a)` / `topic[0]` is load-bearing
(counterexample above). -/
theorem predict_pagerank_order_irrelevant (fcl : List (List Nat) → List Nat)
    (ord : List String → List String) (stem : String → String)
    (st : TPState) (X : List Token) (n : Nat)
    (pr1 pr2 : List Edge → List (List String × ℚ))
    (h : ∀ es, (pr1 es).Perm (pr2 es)) :
    predictTP fcl pr1 ord stem st X n = predictTP fcl pr2 ord stem st X n := by
  unfold predictTP
  rw [identifyTopics_pr_perm fcl ord _ pr1 pr2 h]

/-- C3 amended, witness: reversing the pagerank item list leaves the
output of a concrete successful run unchanged. -/
theorem predict_pagerank_order_irrelevant_witness :
    predictTP fcl12 pr32 ordId stemId initState doc3 10 =
      predictTP fcl12 pr32rev ordId stemId initState doc3 10 :=
  predict_pagerank_order_irrelevant fcl12 ordId stemId initState doc3 10 pr32 pr32rev
    fun es => (List.reverse_perm (pr32 es)).symm

/-- C4 counterexample: under the "first" policy the selector takes
`topic[0]` of the set-iteration-ordered member list, not the
lexicographically-first member: for the cluster listed as ["bb", "aa"]
(with "aa" lexicographically before "bb") the produced keyphrase comes
from "bb". -/
theorem select_not_lex_first_counterexample :
    selectLoop umC4 [((1 : ℚ), ["bb", "aa"])] = .ok ["bb"] ∧
      recoverKeyphrase umC4 "aa" = .ok "aa" ∧
      strLe "aa" "bb" ∧ "aa" ≠ "bb" ∧ (["bb"] : List String) ≠ ["aa"] :=
  ⟨rfl, rfl, by decide, by decide, by decide⟩

/-- C4 amended: the "first" policy picks the head of the cluster's
iteration-order list; this is the lexicographically-first phrase key
exactly when that list happens to be sorted. -/
theorem firstPolicy_min (l : List String) (hs : List.Sorted strLe l) (k : String)
    (hk : firstPolicy l = some k) : ∀ s ∈ l, strLe k s := by
  cases l with
  | nil => simp [firstPolicy] at hk
  | cons a rest =>
    obtain rfl : a = k := by simpa [firstPolicy] using hk
    intro s hsm
    rcases List.mem_cons.mp hsm with rfl | h2
    · exact le_refl s.toList
    · exact (List.sorted_cons.mp hs).1 s h2

/-- C4 amended, witness. -/
theorem firstPolicy_min_witness : strLe "aa" "bb" :=
  firstPolicy_min ["aa", "bb"] (by decide) "aa" rfl "bb" (by decide)

/-- C5 counterexample: `predict` never clears `self.phrases` /
`self.unstem_map`, so a second call on the same instance sees the first
document's state: on a fresh instance the document "cc xx dd" yields
["dd", "cc"], but after a first call on "aa xx bb" the same second call
raises `ZeroDivisionError` (stale occurrence indices collide with fresh
ones). -/
theorem predict_state_leak_counterexample :
    ((predictTP fclSingles prOnes ordId stemId initState doc1 10).bind
        fun p => predictTP fclSingles prOnes ordId stemId p.1 doc2 10) =
        .error PyError.zeroDivision ∧
      (predictTP fclSingles prOnes ordId stemId initState doc2 10).map Prod.snd =
        .ok ["dd", "cc"] :=
  ⟨rfl, rfl⟩

/-! Preservation of phrase keys across a `predict` call (for C5 amended). -/

theorem phrasesWrite_isSome (segs l : List (List String)) (ph : PhraseMap) (k : String)
    (h : (alookup ph k).isSome) : (alookup (phrasesWrite segs l ph) k).isSome := by
  induction l generalizing ph with
  | nil => exact h
  | cons s rest ih =>
    by_cases hs : s ≠ []
    · rw [phrasesWrite, if_pos hs]
      exact ih _ (isSome_alookup_aset _ _ _ _ h)
    · rw [phrasesWrite, if_neg hs]
      exact ih _ h

theorem extractPhrases_isSome (stem : String → String) (ph : PhraseMap) (um : UnstemMap)
    (X : List Token) (k : String) (h : (alookup ph k).isSome) :
    (alookup (extractPhrases stem ph um X).1 k).isSome :=
  phrasesWrite_isSome _ _ ph k h

theorem edgesInner_preserves_some (ord : List String → List String) (v : List String)
    (us : List (List String)) :
    ∀ (m : PhraseMap) (es : List Edge) (m2 : PhraseMap) (k : String) (v0 : List Nat),
      alookup m k = some v0 → edgesInner ord v us m = .ok (es, m2) →
        alookup m2 k = some v0 := by
  induction us with
  | nil =>
    intro m es m2 k v0 hk he
    rw [edgesInner] at he
    obtain ⟨-, rfl⟩ : ([] : List Edge) = es ∧ m = m2 := by simpa using he
    exact hk
  | cons u us ih =>
    intro m es m2 k v0 hk he
    by_cases hu : u ≠ v
    · rw [edgesInner, if_pos hu] at he
      split at he
      · simp at he
      · next r heq =>
        split at he
        · simp at he
        · next s heq2 =>
          obtain ⟨-, rfl⟩ : (v, u, r.1) :: s.1 = es ∧ s.2 = m2 := by simpa using he
          exact ih r.2 s.1 s.2 k v0
            (calcOuter_preserves_some (ord v) (ord u) 0 m r.1 r.2 k v0 hk heq) heq2
    · rw [edgesInner, if_neg hu] at he
      exact ih m es m2 k v0 hk he

theorem edgesOuter_preserves_some (ord : List String → List String)
    (cs : List (List String)) (vs : List (List String)) :
    ∀ (m : PhraseMap) (es : List Edge) (m2 : PhraseMap) (k : String) (v0 : List Nat),
      alookup m k = some v0 → edgesOuter ord cs vs m = .ok (es, m2) →
        alookup m2 k = some v0 := by
  induction vs with
  | nil =>
    intro m es m2 k v0 hk he
    rw [edgesOuter] at he
    obtain ⟨-, rfl⟩ : ([] : List Edge) = es ∧ m = m2 := by simpa using he
    exact hk
  | cons v vs ih =>
    intro m es m2 k v0 hk he
    rw [edgesOuter] at he
    split at he
    · simp at he
    · next r heq =>
      split at he
      · simp at he
      · next s heq2 =>
        obtain ⟨-, rfl⟩ : r.1 ++ s.1 = es ∧ s.2 = m2 := by simpa using he
        exact ih r.2 s.1 s.2 k v0
          (edgesInner_preserves_some ord v cs m r.1 r.2 k v0 hk heq) heq2

theorem topicEdges_preserves_some (fcl : List (List Nat) → List Nat)
    (ord : List String → List String) (ph : PhraseMap) (r : List Edge × PhraseMap)
    (he : topicEdges fcl ord ph = .ok r) (k : String) (v : List Nat)
    (hk : alookup ph k = some v) : alookup r.2 k = some v := by
  simp only [topicEdges] at he
  split at he
  · simp at he
  · split at he
    · simp at he
    · next cids heq =>
      exact edgesOuter_preserves_some ord _ _ ph r.1 r.2 k v hk he

/-- C5 amended: extraction state is not rebuilt from scratch per call: the
phrase map persists across `predict` calls, every phrase key present
before a successful call is still a key of `self.phrases` afterwards, so
later calls run on state carried over from earlier documents (freshness
holds only for a newly constructed instance, `initState`). -/
theorem predict_keeps_phrase_keys (fcl : List (List Nat) → List Nat)
    (pr : List Edge → List (List String × ℚ)) (ord : List String → List String)
    (stem : String → String) (st : TPState) (X : List Token) (n : Nat) (k : String)
    (h : (alookup st.phrases k).isSome = true) :
    (predictTP fcl pr ord stem st X n).map
      (fun q => (alookup q.1.phrases k).isSome) ≠ .ok false := by
  intro hbad
  unfold predictTP at hbad
  split at hbad
  · simp [Except.map] at hbad
  · next r hid =>
    split at hbad
    · simp [Except.map] at hbad
    · next res hsel =>
      simp only [Except.map] at hbad
      have hbad2 : (alookup r.2 k).isSome = false := by simpa using hbad
      have h1 : (alookup (extractPhrases stem st.phrases st.unstem_map X).1 k).isSome :=
        extractPhrases_isSome stem st.phrases st.unstem_map X k h
      obtain ⟨v2, hv2⟩ := Option.isSome_iff_exists.mp h1
      unfold identifyTopics at hid
      split at hid
      · simp at hid
      · next r0 heq =>
        have hpair : (sortDesc ((prApply pr r0.1).map fun p => (p.2, ord p.1)), r0.2) =
            r := by simpa using hid
        have h2 := topicEdges_preserves_some fcl ord _ r0 heq k v2 hv2
        have hbad3 : (alookup r0.2 k).isSome = false := by
          rw [← hpair] at hbad2
          simpa using hbad2
        rw [h2] at hbad3
        simp at hbad3

/-- C5 amended, witness: a pre-populated state (stale key "zz") flows into
the next call's result. -/
theorem predict_keeps_phrase_keys_witness :
    (predictTP fclSingles prOnes ordId stemId stManual doc1 10).map
      (fun q => (alookup q.1.phrases "zz").isSome) ≠ .ok false :=
  predict_keeps_phrase_keys fclSingles prOnes ordId stemId stManual doc1 10 "zz"
    (by decide)

/-! Output length bound (C9). -/

theorem selectLoop_length (um : UnstemMap) (l : List (ℚ × List String)) :
    ∀ res, selectLoop um l = .ok res → res.length ≤ l.length := by
  induction l with
  | nil =>
    intro res he
    rw [selectLoop] at he
    obtain rfl : ([] : List String) = res := by simpa using he
    simp
  | cons p rest ih =>
    intro res he
    obtain ⟨rank, topic⟩ := p
    rw [selectLoop] at he
    split at he
    · exact le_trans (ih res he) (Nat.le_succ _)
    · next kp hkp =>
      split at he
      · simp at he
      · next s hs =>
        split at he
        · simp at he
        · next out hout =>
          obtain rfl : s :: out = res := by simpa using he
          simpa using Nat.succ_le_succ (ih out hout)

/-- C9: whenever `predict` returns, the returned keyphrase list has at most
`n_keywords` elements (the loop of line 281 ranges over
`self.topics[:n_keywords]` and appends at most one string per topic). -/
theorem predict_result_length_le (fcl : List (List Nat) → List Nat)
    (pr : List Edge → List (List String × ℚ)) (ord : List String → List String)
    (stem : String → String) (st : TPState) (X : List Token) (n : Nat)
    (res : List String)
    (h : (predictTP fcl pr ord stem st X n).map Prod.snd = .ok res) :
    res.length ≤ n := by
  unfold predictTP at h
  split at h
  · simp [Except.map] at h
  · next r hid =>
    split at h
    · simp [Except.map] at h
    · next out hsel =>
      obtain rfl : out = res := by simpa [Except.map] using h
      refine le_trans (selectLoop_length _ _ out hsel) ?_
      rw [List.length_take]
      exact min_le_left _ _

/-- C9 witness: a concrete successful run returning two keyphrases with
`n_keywords = 10`. -/
theorem predict_result_length_le_witness :
    (predictTP fclSingles prOnes ordId stemId initState doc2 10).map Prod.snd =
        .ok ["dd", "cc"] ∧
      (["dd", "cc"] : List String).length ≤ 10 :=
  ⟨rfl, predict_result_length_le fclSingles prOnes ordId stemId initState doc2 10
    ["dd", "cc"] rfl⟩

end Keyverbum
